import Mathlib

/-!
Verification development for the file-categorizer core pipeline
(`src/core/models.py`, `src/core/scanner.py`, `src/core/database.py`,
`src/core/error_handler.py`, `src/web/blueprints/api.py`).

The Python code is shallowly embedded: pure functions become Lean
functions, SQLite tables become lists of rows, filesystem probes become
an explicit probe function `String → Option Bool` (`none` models a raised
`OSError`), and `datetime` values become integer Unix timestamps (the
code itself stores `int(dt.timestamp())`).
-/

/-! ### ASCII case lemmas for `Char.toLower` / `Char.toUpper`

`FileCategory.categorize_file` lower-cases the extension with Python's
`str.lower`, which on ASCII agrees with `Char.toLower`.  These lemmas
characterise the core functions well enough to prove case-insensitivity.
-/

theorem charToNat_ofNat_valid {n : Nat} (h : n.isValidChar) :
    (Char.ofNat n).toNat = n := by
  rw [Char.ofNat, dif_pos h]
  rfl

theorem charToNat_ofNat_lt {n : Nat} (h : n < 55296) :
    (Char.ofNat n).toNat = n :=
  charToNat_ofNat_valid (Or.inl h)

theorem toLower_of_not_upper {c : Char} (h : ¬(65 ≤ c.toNat ∧ c.toNat ≤ 90)) :
    Char.toLower c = c := by
  rw [Char.toLower, if_neg]
  exact fun hc => h ⟨hc.1, hc.2⟩

theorem toLower_of_upper {c : Char} (h : 65 ≤ c.toNat ∧ c.toNat ≤ 90) :
    Char.toLower c = Char.ofNat (c.toNat + 32) := by
  rw [Char.toLower, if_pos]
  exact ⟨h.1, h.2⟩

theorem toUpper_of_not_lower {c : Char} (h : ¬(97 ≤ c.toNat ∧ c.toNat ≤ 122)) :
    Char.toUpper c = c := by
  rw [Char.toUpper, if_neg]
  exact fun hc => h ⟨hc.1, hc.2⟩

theorem toUpper_of_lower {c : Char} (h : 97 ≤ c.toNat ∧ c.toNat ≤ 122) :
    Char.toUpper c = Char.ofNat (c.toNat - 32) := by
  rw [Char.toUpper, if_pos]
  exact ⟨h.1, h.2⟩

theorem toLower_toLower (c : Char) :
    Char.toLower (Char.toLower c) = Char.toLower c := by
  by_cases h : 65 ≤ c.toNat ∧ c.toNat ≤ 90
  · rw [toLower_of_upper h]
    apply toLower_of_not_upper
    rw [charToNat_ofNat_lt (by omega)]
    omega
  · rw [toLower_of_not_upper h]
    exact toLower_of_not_upper h

theorem toLower_toUpper (c : Char) :
    Char.toLower (Char.toUpper c) = Char.toLower c := by
  by_cases h : 97 ≤ c.toNat ∧ c.toNat ≤ 122
  · rw [toUpper_of_lower h]
    have hv : (Char.ofNat (c.toNat - 32)).toNat = c.toNat - 32 :=
      charToNat_ofNat_lt (by omega)
    rw [toLower_of_upper (by rw [hv]; omega), hv, toLower_of_not_upper (by omega)]
    have hn : c.toNat - 32 + 32 = c.toNat := by omega
    rw [hn, Char.ofNat_toNat]
  · rw [toUpper_of_not_lower h]

theorem toLower_eq_dot {c : Char} (h : Char.toLower c = '.') : c = '.' := by
  by_cases hu : 65 ≤ c.toNat ∧ c.toNat ≤ 90
  · exfalso
    rw [toLower_of_upper hu] at h
    have hv : (Char.ofNat (c.toNat + 32)).toNat = ('.' : Char).toNat := by rw [h]
    rw [charToNat_ofNat_lt (by omega)] at hv
    have : ('.' : Char).toNat = 46 := by decide
    omega
  · rwa [toLower_of_not_upper hu] at h

theorem toUpper_eq_dot {c : Char} (h : Char.toUpper c = '.') : c = '.' := by
  by_cases hl : 97 ≤ c.toNat ∧ c.toNat ≤ 122
  · exfalso
    rw [toUpper_of_lower hl] at h
    have hv : (Char.ofNat (c.toNat - 32)).toNat = ('.' : Char).toNat := by rw [h]
    rw [charToNat_ofNat_lt (by omega)] at hv
    have : ('.' : Char).toNat = 46 := by decide
    omega
  · rwa [toUpper_of_not_lower hl] at h

theorem toLower_dot : Char.toLower '.' = '.' := by decide

theorem toUpper_dot : Char.toUpper '.' = '.' := by decide

theorem map_toLower_toLower (l : List Char) :
    (l.map Char.toLower).map Char.toLower = l.map Char.toLower := by
  induction l with
  | nil => rfl
  | cons c cs ih => simp [toLower_toLower, ih]

theorem map_toLower_toUpper (l : List Char) :
    (l.map Char.toUpper).map Char.toLower = l.map Char.toLower := by
  induction l with
  | nil => rfl
  | cons c cs ih => simp [toLower_toUpper, ih]

/-! ### Category classifier (`src/core/models.py`, `FileCategory`)

`FileCategory.categorize_file` takes `file_path.suffix.lower()` and looks
it up in the `get_extensions` mapping.  `pathlib`'s `suffix` is the part
of the final path component from its last dot onwards, provided that dot
is neither the first nor the last character of the name (so `.hidden`,
`name.` and dot-less names have suffix `""`).  We model file names as
`List Char` and `suffix` by scanning the reversed name.
-/

inductive FileCategory where
  | graphics
  | lightburn
  | vector
deriving DecidableEq, Repr

/-- The extension-to-category mapping of `FileCategory.get_extensions`. -/
def FileCategory.get_extensions : List (List Char × FileCategory) :=
  [(".jpg".toList, .graphics),
   (".jpeg".toList, .graphics),
   (".png".toList, .graphics),
   (".gif".toList, .graphics),
   (".bmp".toList, .graphics),
   (".tiff".toList, .graphics),
   (".tif".toList, .graphics),
   (".webp".toList, .graphics),
   (".ico".toList, .graphics),
   (".lbrn".toList, .lightburn),
   (".lbrn2".toList, .lightburn),
   (".ai".toList, .vector),
   (".svg".toList, .vector),
   (".eps".toList, .vector)]

/-- Auxiliary scan for `pathlib.PurePath.suffix`: the first argument is the
still-unscanned part of the reversed file name, the second the extension
characters (in original order) collected so far.  A suffix exists when the
scan meets a dot that is neither the last character of the name
(`acc ≠ []`) nor the first (`rest ≠ []`). -/
def sufRevAux : List Char → List Char → Option (List Char)
  | [], _ => none
  | c :: rest, acc =>
    if c = '.' then
      if acc = [] ∨ rest = [] then none else some ('.' :: acc)
    else
      sufRevAux rest (c :: acc)

/-- Model of `pathlib.PurePath.suffix` on a file name (empty list when there is no
extension, mirroring Python's `""`). -/
def pySuffix (name : List Char) : List Char :=
  (sufRevAux name.reverse []).getD []

/-- Model of `FileCategory.categorize_file`: look up `path.suffix.lower()` in
`get_extensions`. -/
def FileCategory.categorize_file (name : List Char) : Option FileCategory :=
  FileCategory.get_extensions.lookup ((pySuffix name).map Char.toLower)

theorem sufRevAux_map {f : Char → Char} (hdot : f '.' = '.')
    (hinj : ∀ c, f c = '.' → c = '.') :
    ∀ (r acc : List Char),
      sufRevAux (r.map f) (acc.map f) = (sufRevAux r acc).map (List.map f)
  | [], _ => rfl
  | c :: rest, acc => by
    by_cases hc : c = '.'
    · subst hc
      by_cases he : acc = [] ∨ rest = []
      · have hm : List.map f acc = [] ∨ List.map f rest = [] := by
          rcases he with he | he
          · exact Or.inl (by simp [he])
          · exact Or.inr (by simp [he])
        simp [sufRevAux, hdot, hm, he]
      · have hm : ¬(List.map f acc = [] ∨ List.map f rest = []) := by
          simp only [not_or, List.map_eq_nil_iff] at he ⊢
          exact he
        simp [sufRevAux, hdot, hm, he]
    · have hfc : ¬ f c = '.' := fun h => hc (hinj c h)
      simp only [List.map_cons, sufRevAux, if_neg hfc, if_neg hc]
      have := sufRevAux_map hdot hinj rest (c :: acc)
      simpa using this

theorem pySuffix_map {f : Char → Char} (hdot : f '.' = '.')
    (hinj : ∀ c, f c = '.' → c = '.') (name : List Char) :
    pySuffix (name.map f) = (pySuffix name).map f := by
  unfold pySuffix
  rw [← List.map_reverse]
  have h := sufRevAux_map hdot hinj name.reverse []
  simp only [List.map_nil] at h
  rw [h]
  cases sufRevAux name.reverse [] <;> simp

/-- C4: `FileCategory.categorize_file` is a deterministic total function of
the file name, case-insensitive on the extension: lower-casing the name
does not change the verdict, an upper-cased name classifies like the
lower-cased one (so `classify(x.JPG) = classify(x.jpg) = graphics`), and a
name with no extension, or whose extension is not in the mapping, yields
`none`. -/
theorem categorize_file_case_insensitive :
    (∀ name : List Char,
        FileCategory.categorize_file (name.map Char.toLower) =
          FileCategory.categorize_file name)
    ∧ (∀ name : List Char,
        FileCategory.categorize_file (name.map Char.toUpper) =
          FileCategory.categorize_file (name.map Char.toLower))
    ∧ (∀ name : List Char, pySuffix name = [] →
        FileCategory.categorize_file name = none)
    ∧ (∀ name : List Char,
        FileCategory.get_extensions.lookup ((pySuffix name).map Char.toLower) = none →
        FileCategory.categorize_file name = none)
    ∧ FileCategory.categorize_file "x.JPG".toList = some .graphics
    ∧ FileCategory.categorize_file "x.jpg".toList = some .graphics := by
  refine ⟨?_, ?_, ?_, ?_, by decide, by decide⟩
  · intro name
    unfold FileCategory.categorize_file
    rw [pySuffix_map toLower_dot (fun c h => toLower_eq_dot h), map_toLower_toLower]
  · intro name
    unfold FileCategory.categorize_file
    rw [pySuffix_map toUpper_dot (fun c h => toUpper_eq_dot h),
      pySuffix_map toLower_dot (fun c h => toLower_eq_dot h),
      map_toLower_toUpper, map_toLower_toLower]
  · intro name h
    unfold FileCategory.categorize_file
    rw [h]
    decide
  · intro name h
    unfold FileCategory.categorize_file
    exact h

/-- Witness for C4 at concrete inputs: `.hidden` has no extension and is
not categorized, and `photo.TIFF` classifies like `photo.tiff`. -/
theorem categorize_file_case_insensitive_witness :
    FileCategory.categorize_file ".hidden".toList = none
    ∧ FileCategory.categorize_file ("photo.TIFF".toList.map Char.toLower) =
        FileCategory.categorize_file "photo.TIFF".toList := by
  constructor
  · exact categorize_file_case_insensitive.2.2.1 ".hidden".toList (by decide)
  · exact categorize_file_case_insensitive.1 "photo.TIFF".toList

/-! ### Persistence store model (`src/core/database.py`)

The SQLite `files` table (`id TEXT PRIMARY KEY, path TEXT UNIQUE, ...`) is
modelled as a `List Row`.  For the cleanup sweeps, which read the table
with `SELECT ... ORDER BY id LIMIT ? OFFSET ?`, the list stands for the
id-ordered view of the table; the primary-key constraint appears as the
hypothesis that the ids are pairwise distinct.  A filesystem probe
(`Path(p).exists()`) is a function `String → Option Bool`; `none` models a
raised `OSError`/`PermissionError`/`ValueError` (caught and recorded by
the code), `some b` a successful probe answering `b`. -/

structure Row where
  id : String
  path : String
  filename : String
  category : FileCategory
  size : Int
  modified_date : Int
  scanned_date : Int
  file_exists : Bool
deriving DecidableEq, Repr

/-- The `CleanupResult` dataclass of `src/core/models.py`. -/
structure CleanupResult where
  total_checked : Nat
  removed_count : Nat
  removed_files : List String
  errors : List String
  dry_run : Bool
deriving DecidableEq, Repr

/-- One batch of the existence scan inside
`DatabaseManager.verify_and_update_existence`: the `for` loop over the
fetched rows, accumulating `updated_files`, `errors` and `batch_updates`
(a `(new_flag, id)` pair per row whose stored flag disagrees with the
probe). -/
def verifyScanBatch (fs : String → Option Bool) (batch : List Row) :
    List String × List String × List (Bool × String) :=
  batch.foldl
    (fun acc r =>
      match fs r.path with
      | none => (acc.1, acc.2.1 ++ ["Error checking " ++ r.path], acc.2.2)
      | some actual =>
        if r.file_exists ≠ actual then
          (acc.1 ++ [r.path], acc.2.1, acc.2.2 ++ [(actual, r.id)])
        else acc)
    ([], [], [])

/-- Model of `cursor.executemany("UPDATE files SET file_exists = ? WHERE id = ?", ups)`:
each pair updates the flag of every row carrying that id. -/
def applyFlagUpdates (db : List Row) (ups : List (Bool × String)) : List Row :=
  ups.foldl
    (fun d u => d.map (fun r => if r.id = u.2 then { r with file_exists := u.1 } else r))
    db

/-- The `while offset < total_count` loop of
`DatabaseManager.verify_and_update_existence`.  The `fuel` argument is a
standard device for embedding the `while` loop: the top-level entry point
passes `total_count + 1` fuel, which the loop can never exhaust because
every iteration with a non-empty batch advances `offset` by
`batch_size ≥ 1`.  State: current table view `db`, `offset`, accumulated
`updated_files`, `errors`, and `processed_count`. -/
def verifyLoop (fs : String → Option Bool) (dryRun : Bool) (bs total : Nat) :
    Nat → List Row → Nat → List String → List String → Nat →
    List Row × List String × List String × Nat
  | 0, db, _, upd, errs, proc => (db, upd, errs, proc)
  | fuel + 1, db, off, upd, errs, proc =>
    if off < total then
      if ((db.drop off).take bs).isEmpty then (db, upd, errs, proc)
      else
        verifyLoop fs dryRun bs total fuel
          (if (verifyScanBatch fs ((db.drop off).take bs)).2.2 ≠ [] ∧ ¬dryRun then
            applyFlagUpdates db (verifyScanBatch fs ((db.drop off).take bs)).2.2
          else db)
          (off + bs)
          (upd ++ (verifyScanBatch fs ((db.drop off).take bs)).1)
          (errs ++ (verifyScanBatch fs ((db.drop off).take bs)).2.1)
          (proc + ((db.drop off).take bs).length)
    else (db, upd, errs, proc)

/-- Model of `DatabaseManager.verify_and_update_existence(dry_run, batch_size)`:
returns the table after the sweep together with the `CleanupResult`
(`total_checked = processed_count`, `removed_count = len(updated_files)`,
`removed_files = updated_files`). -/
def DatabaseManager.verify_and_update_existence (fs : String → Option Bool)
    (dryRun : Bool) (bs : Nat) (db : List Row) : List Row × CleanupResult :=
  let total := db.length
  let r := verifyLoop fs dryRun bs total (total + 1) db 0 [] [] 0
  (r.1, ⟨r.2.2.2, r.2.1.length, r.2.1, r.2.2.1, dryRun⟩)

/-- The reconciled value of one row: if the probe answers, the flag becomes
the probed existence; if the probe errors, the row is untouched. -/
def reconcileRow (fs : String → Option Bool) (r : Row) : Row :=
  match fs r.path with
  | some b => { r with file_exists := b }
  | none => r

/-- The `(new_flag, id)` update produced for one row, if any. -/
def updPair (fs : String → Option Bool) (r : Row) : Option (Bool × String) :=
  match fs r.path with
  | some b => if r.file_exists ≠ b then some (b, r.id) else none
  | none => none

/-- The row of `updated_files` produced for one row, if any. -/
def updPath (fs : String → Option Bool) (r : Row) : Option String :=
  match fs r.path with
  | some b => if r.file_exists ≠ b then some r.path else none
  | none => none

/-- The error entry produced for one row, if any. -/
def errEntry (fs : String → Option Bool) (r : Row) : Option String :=
  match fs r.path with
  | some _ => none
  | none => some ("Error checking " ++ r.path)

theorem verifyScanBatch_eq (fs : String → Option Bool) (batch : List Row) :
    verifyScanBatch fs batch =
      (batch.filterMap (updPath fs), batch.filterMap (errEntry fs),
        batch.filterMap (updPair fs)) := by
  suffices h : ∀ (l : List Row) (u e : List String) (p : List (Bool × String)),
      l.foldl
        (fun acc r =>
          match fs r.path with
          | none => (acc.1, acc.2.1 ++ ["Error checking " ++ r.path], acc.2.2)
          | some actual =>
            if r.file_exists ≠ actual then
              (acc.1 ++ [r.path], acc.2.1, acc.2.2 ++ [(actual, r.id)])
            else acc)
        (u, e, p) =
      (u ++ l.filterMap (updPath fs), e ++ l.filterMap (errEntry fs),
        p ++ l.filterMap (updPair fs)) by
    have := h batch [] [] []
    simpa [verifyScanBatch] using this
  intro l
  induction l with
  | nil => intro u e p; simp
  | cons r rest ih =>
    intro u e p
    simp only [List.foldl_cons, List.filterMap_cons]
    cases hfs : fs r.path with
    | none =>
      simp only [hfs, updPath, errEntry, updPair, ih]
      try simp [hfs]
    | some actual =>
      by_cases hne : r.file_exists ≠ actual
      · simp only [hfs, if_pos hne, ih, updPath, errEntry, updPair]
        try simp [hfs, hne]
      · simp only [hfs, if_neg hne, ih, updPath, errEntry, updPair]
        try simp [hfs, hne]

/-- Row-wise view of `applyFlagUpdates`: the effect of the update list on a
single row. -/
def applyUpsRow (ups : List (Bool × String)) (r : Row) : Row :=
  ups.foldl (fun r u => if r.id = u.2 then { r with file_exists := u.1 } else r) r

theorem applyFlagUpdates_eq_map :
    ∀ (ups : List (Bool × String)) (db : List Row),
      applyFlagUpdates db ups = db.map (applyUpsRow ups)
  | [], db => by
    simp [applyFlagUpdates, show applyUpsRow [] = fun r => r from rfl]
  | u :: rest, db => by
    have ih := applyFlagUpdates_eq_map rest
      (db.map (fun r => if r.id = u.2 then { r with file_exists := u.1 } else r))
    simp only [applyFlagUpdates, List.foldl_cons] at ih ⊢
    rw [ih, List.map_map]
    rfl

theorem applyUpsRow_id (ups : List (Bool × String)) :
    ∀ (r : Row), (applyUpsRow ups r).id = r.id := by
  induction ups with
  | nil => intro r; rfl
  | cons u rest ih =>
    intro r
    show (applyUpsRow rest (if r.id = u.2 then { r with file_exists := u.1 } else r)).id = r.id
    by_cases h : r.id = u.2
    · rw [if_pos h, ih]
    · rw [if_neg h, ih]

theorem applyUpsRow_of_not_mem (ups : List (Bool × String)) :
    ∀ (r : Row), (∀ p ∈ ups, r.id ≠ p.2) → applyUpsRow ups r = r := by
  induction ups with
  | nil => intro r _; rfl
  | cons u rest ih =>
    intro r h
    show applyUpsRow rest (if r.id = u.2 then { r with file_exists := u.1 } else r) = r
    rw [if_neg (h u (List.mem_cons_self u rest)), ih r]
    intro p hp
    exact h p (List.mem_cons_of_mem u hp)

theorem updPair_eq_some {fs : String → Option Bool} {r : Row} {p : Bool × String}
    (h : updPair fs r = some p) :
    fs r.path = some p.1 ∧ r.file_exists ≠ p.1 ∧ p.2 = r.id := by
  cases hfs : fs r.path with
  | none => simp [updPair, hfs] at h
  | some b =>
    simp only [updPair, hfs] at h
    by_cases hne : r.file_exists ≠ b
    · rw [if_pos hne] at h
      injection h with h
      subst h
      exact ⟨rfl, hne, rfl⟩
    · rw [if_neg hne] at h
      simp at h

theorem updPair_eq_none {fs : String → Option Bool} {r : Row}
    (h : updPair fs r = none) : reconcileRow fs r = r := by
  cases hfs : fs r.path with
  | none => simp [reconcileRow, hfs]
  | some b =>
    simp only [updPair, hfs] at h
    by_cases hne : r.file_exists ≠ b
    · rw [if_pos hne] at h
      simp at h
    · push_neg at hne
      simp only [reconcileRow, hfs]
      rw [← hne]

theorem updPair_mem_id {fs : String → Option Bool} {Y : List Row} {p : Bool × String}
    (h : p ∈ Y.filterMap (updPair fs)) : p.2 ∈ Y.map Row.id := by
  obtain ⟨r, hr, he⟩ := List.mem_filterMap.mp h
  have := (updPair_eq_some he).2.2
  rw [this]
  exact List.mem_map.mpr ⟨r, hr, rfl⟩

theorem applyUpsRow_outside {fs : String → Option Bool} {Y : List Row} {r : Row}
    (h : r.id ∉ Y.map Row.id) :
    applyUpsRow (Y.filterMap (updPair fs)) r = r := by
  apply applyUpsRow_of_not_mem
  intro p hp heq
  exact h (heq ▸ updPair_mem_id hp)

theorem applyUpsRow_batch {fs : String → Option Bool} :
    ∀ (Y : List Row) (y : Row), (Y.map Row.id).Nodup → y ∈ Y →
      applyUpsRow (Y.filterMap (updPair fs)) y = reconcileRow fs y := by
  intro Y
  induction Y with
  | nil => intro y _ hy; exact absurd hy (List.not_mem_nil y)
  | cons w Y' ih =>
    intro y hnd hy
    rw [List.map_cons, List.nodup_cons] at hnd
    rcases List.mem_cons.mp hy with hy | hy
    · subst hy
      cases hup : updPair fs y with
      | some p =>
        obtain ⟨hfs, hne, hid⟩ := updPair_eq_some hup
        rw [List.filterMap_cons_some hup]
        show applyUpsRow (Y'.filterMap (updPair fs))
          (if y.id = p.2 then { y with file_exists := p.1 } else y) = reconcileRow fs y
        rw [if_pos hid.symm]
        rw [applyUpsRow_outside (by simpa using hnd.1)]
        unfold reconcileRow
        rw [hfs]
      | none =>
        rw [List.filterMap_cons_none hup]
        rw [applyUpsRow_outside (by simpa using hnd.1), updPair_eq_none hup]
    · have hne : y.id ≠ w.id := by
        intro h
        exact hnd.1 (h ▸ List.mem_map.mpr ⟨y, hy, rfl⟩)
      cases hup : updPair fs w with
      | some p =>
        obtain ⟨_, _, hid⟩ := updPair_eq_some hup
        rw [List.filterMap_cons_some hup]
        show applyUpsRow (Y'.filterMap (updPair fs))
          (if y.id = p.2 then { y with file_exists := p.1 } else y) = reconcileRow fs y
        rw [if_neg (by rw [hid]; exact hne), ih y hnd.2 hy]
      | none =>
        rw [List.filterMap_cons_none hup]
        exact ih y hnd.2 hy

theorem map_eq_of_forall {α : Type} {f : α → α} :
    ∀ (l : List α), (∀ x ∈ l, f x = x) → l.map f = l := by
  intro l h
  induction l with
  | nil => rfl
  | cons a t ih =>
    simp only [List.map_cons]
    rw [h a (List.mem_cons_self a t), ih (fun x hx => h x (List.mem_cons_of_mem a hx))]

theorem applyFlagUpdates_decomp (fs : String → Option Bool) (X Y Z : List Row)
    (hnd : ((X ++ Y ++ Z).map Row.id).Nodup) :
    applyFlagUpdates (X ++ Y ++ Z) (Y.filterMap (updPair fs)) =
      X ++ Y.map (reconcileRow fs) ++ Z := by
  rw [List.map_append, List.map_append, List.nodup_append] at hnd
  obtain ⟨hnd12, hndZ, hdisZ⟩ := hnd
  rw [List.nodup_append] at hnd12
  obtain ⟨hndX, hndY, hdisXY⟩ := hnd12
  rw [applyFlagUpdates_eq_map, List.map_append, List.map_append]
  congr 1
  · congr 1
    · apply map_eq_of_forall
      intro x hx
      apply applyUpsRow_outside
      intro hmem
      exact hdisXY (List.mem_map.mpr ⟨x, hx, rfl⟩) hmem
    · apply List.map_congr_left
      intro y hy
      exact applyUpsRow_batch Y y hndY hy
  · apply map_eq_of_forall
    intro z hz
    apply applyUpsRow_outside
    intro hmem
    exact hdisZ (List.mem_append_right _ hmem) (List.mem_map.mpr ⟨z, hz, rfl⟩)

theorem applyFlagUpdates_batch (fs : String → Option Bool) (db : List Row)
    (off bs : Nat) (hnd : (db.map Row.id).Nodup) :
    applyFlagUpdates db (((db.drop off).take bs).filterMap (updPair fs)) =
      db.take off ++ ((db.drop off).take bs).map (reconcileRow fs) ++
        db.drop (off + bs) := by
  have hdb : db = db.take off ++ ((db.drop off).take bs) ++ db.drop (off + bs) := by
    rw [List.append_assoc]
    have h2 : db.drop (off + bs) = (db.drop off).drop bs := (List.drop_drop bs off db).symm
    rw [h2, List.take_append_drop, List.take_append_drop]
  nth_rewrite 1 [hdb]
  apply applyFlagUpdates_decomp
  rw [← hdb]
  exact hnd


theorem verifyLoop_dry_fst (fs : String → Option Bool) (bs total : Nat) :
    ∀ (fuel : Nat) (db : List Row) (off : Nat) (upd errs : List String) (proc : Nat),
      (verifyLoop fs true bs total fuel db off upd errs proc).1 = db
  | 0, db, off, upd, errs, proc => rfl
  | fuel + 1, db, off, upd, errs, proc => by
    show (verifyLoop fs true bs total (fuel + 1) db off upd errs proc).1 = db
    unfold verifyLoop
    by_cases h : off < total
    · rw [if_pos h]
      by_cases hb : ((db.drop off).take bs).isEmpty
      · rw [if_pos hb]
      · rw [if_neg hb]
        simp only [not_true, and_false, if_false]
        exact verifyLoop_dry_fst fs bs total fuel db (off + bs) _ _ _
    · rw [if_neg h]

theorem reconcileRow_id (fs : String → Option Bool) (r : Row) :
    (reconcileRow fs r).id = r.id := by
  unfold reconcileRow
  cases fs r.path <;> rfl

theorem verifyScanBatch_ups (fs : String → Option Bool) (batch : List Row) :
    (verifyScanBatch fs batch).2.2 = batch.filterMap (updPair fs) := by
  rw [verifyScanBatch_eq]

theorem map_reconcile_of_no_ups {fs : String → Option Bool} {Y : List Row}
    (h : Y.filterMap (updPair fs) = []) : Y.map (reconcileRow fs) = Y := by
  apply map_eq_of_forall
  intro y hy
  exact updPair_eq_none (List.filterMap_eq_nil_iff.mp h y hy)

theorem db_decomp_take_drop (db : List Row) (off bs : Nat) :
    db = db.take off ++ ((db.drop off).take bs) ++ db.drop (off + bs) := by
  rw [List.append_assoc]
  have h2 : db.drop (off + bs) = (db.drop off).drop bs := (List.drop_drop bs off db).symm
  rw [h2, List.take_append_drop, List.take_append_drop]

theorem reassemble (fs : String → Option Bool) (db E : List Row) (off bs : Nat)
    (hoff : off < db.length)
    (hE : E = db.take off ++ ((db.drop off).take bs).map (reconcileRow fs) ++
      db.drop (off + bs)) :
    E.take (off + bs) ++ (E.drop (off + bs)).map (reconcileRow fs) =
      db.take off ++ (db.drop off).map (reconcileRow fs) := by
  have hlenP : (db.take off ++ ((db.drop off).take bs).map (reconcileRow fs)).length
      = off + min bs (db.length - off) := by
    simp only [List.length_append, List.length_map, List.length_take, List.length_drop]
    omega
  have hsplit : (db.drop off).take bs ++ db.drop (off + bs) = db.drop off := by
    have h2 : db.drop (off + bs) = (db.drop off).drop bs := (List.drop_drop bs off db).symm
    rw [h2, List.take_append_drop]
  by_cases hc : bs ≤ db.length - off
  · have hP : (db.take off ++ ((db.drop off).take bs).map (reconcileRow fs)).length
        = off + bs := by
      rw [hlenP]
      omega
    have htake : E.take (off + bs) =
        db.take off ++ ((db.drop off).take bs).map (reconcileRow fs) := by
      rw [hE, List.take_append_of_le_length hP.symm.le, List.take_of_length_le hP.le]
    have hdrop : E.drop (off + bs) = db.drop (off + bs) := by
      rw [hE, List.drop_append_of_le_length hP.symm.le, List.drop_eq_nil_of_le hP.le,
        List.nil_append]
    rw [htake, hdrop, List.append_assoc, ← List.map_append, hsplit]
  · have hZ : db.drop (off + bs) = [] := by
      rw [List.drop_eq_nil_iff]
      omega
    have htake : E.take (off + bs) =
        db.take off ++ ((db.drop off).take bs).map (reconcileRow fs) := by
      rw [hE, hZ, List.append_nil]
      apply List.take_of_length_le
      rw [hlenP]
      omega
    have hdrop : E.drop (off + bs) = db.drop (off + bs) := by
      rw [hE, hZ, List.append_nil, List.drop_eq_nil_iff, hlenP]
      omega
    rw [htake, hdrop, List.append_assoc, ← List.map_append, hsplit]

theorem verifyLoop_false_fst (fs : String → Option Bool) (bs total : Nat) (hbs : 1 ≤ bs) :
    ∀ (fuel : Nat) (db : List Row) (off : Nat) (upd errs : List String) (proc : Nat),
      (db.map Row.id).Nodup → total = db.length → total - off < fuel →
      (verifyLoop fs false bs total fuel db off upd errs proc).1 =
        db.take off ++ (db.drop off).map (reconcileRow fs)
  | 0, db, off, upd, errs, proc => by
    intro _ _ hfuel
    omega
  | fuel + 1, db, off, upd, errs, proc => by
    intro hnd htot hfuel
    unfold verifyLoop
    by_cases hoff : off < total
    · rw [if_pos hoff]
      have hdne : db.drop off ≠ [] := by
        rw [Ne, List.drop_eq_nil_iff]
        omega
      have hbne : ¬((db.drop off).take bs).isEmpty := by
        rw [List.isEmpty_iff, List.take_eq_nil_iff]
        push_neg
        exact ⟨by omega, hdne⟩
      rw [if_neg hbne, verifyScanBatch_ups]
      have hEdef : (if ((db.drop off).take bs).filterMap (updPair fs) ≠ [] ∧ ¬false then
          applyFlagUpdates db (((db.drop off).take bs).filterMap (updPair fs)) else db) =
          db.take off ++ ((db.drop off).take bs).map (reconcileRow fs) ++
            db.drop (off + bs) := by
        by_cases hups : ((db.drop off).take bs).filterMap (updPair fs) = []
        · rw [if_neg (fun hc => hc.1 hups), map_reconcile_of_no_ups hups]
          exact db_decomp_take_drop db off bs
        · rw [if_pos ⟨hups, by simp⟩]
          exact applyFlagUpdates_batch fs db off bs hnd
      rw [hEdef]
      have hids : (db.take off ++ ((db.drop off).take bs).map (reconcileRow fs) ++
          db.drop (off + bs)).map Row.id = db.map Row.id := by
        conv_rhs => rw [db_decomp_take_drop db off bs]
        simp only [List.map_append]
        congr 2
        rw [List.map_map]
        apply List.map_congr_left
        intro y _
        exact reconcileRow_id fs y
      have hlen : (db.take off ++ ((db.drop off).take bs).map (reconcileRow fs) ++
          db.drop (off + bs)).length = db.length := by
        have := congrArg List.length hids
        simpa using this
      have ih := verifyLoop_false_fst fs bs total hbs fuel
        (db.take off ++ ((db.drop off).take bs).map (reconcileRow fs) ++
          db.drop (off + bs))
        (off + bs) (upd ++ (verifyScanBatch fs ((db.drop off).take bs)).1)
        (errs ++ (verifyScanBatch fs ((db.drop off).take bs)).2.1)
        (proc + ((db.drop off).take bs).length)
        (by rw [hids]; exact hnd) (by rw [hlen]; exact htot) (by omega)
      rw [ih]
      exact reassemble fs db _ off bs (by omega) rfl
    · rw [if_neg hoff]
      show db = db.take off ++ (db.drop off).map (reconcileRow fs)
      rw [List.take_of_length_le (by omega), List.drop_eq_nil_of_le (by omega)]
      simp

/-- C1: `DatabaseManager.verify_and_update_existence` with `dry_run=True`
returns the store unchanged (so every existence flag keeps its prior
value), and with `dry_run=False` it maps every record to its reconciled
value: the existence flag of exactly those records whose stored flag
disagrees with the probed filesystem existence of their path is replaced
by the probed value, rows whose probe raises are untouched, and no other
field, and no row membership, changes (the result is a field-preserving
`List.map` of the input).  Hypotheses: `batch_size ≥ 1` (the code's
default is 1000) and distinct ids (the `id TEXT PRIMARY KEY` schema
constraint). -/
theorem verify_and_update_existence_frame (fs : String → Option Bool) (bs : Nat)
    (db : List Row) (hbs : 1 ≤ bs) (hnd : (db.map Row.id).Nodup) :
    (DatabaseManager.verify_and_update_existence fs true bs db).1 = db
    ∧ (DatabaseManager.verify_and_update_existence fs false bs db).1 =
        db.map (reconcileRow fs) := by
  constructor
  · exact verifyLoop_dry_fst fs bs db.length (db.length + 1) db 0 [] [] 0
  · show (verifyLoop fs false bs db.length (db.length + 1) db 0 [] [] 0).1 = _
    rw [verifyLoop_false_fst fs bs db.length hbs (db.length + 1) db 0 [] [] 0 hnd rfl
      (by omega)]
    simp

/-- Probe used by the C1 witness: `pa` vanished, `pb` exists, probing `pc`
raises. -/
def fsW : String → Option Bool := fun p =>
  if p = "pa" then some false else if p = "pc" then none else some true

def rowA : Row := ⟨"a", "pa", "a.jpg", .graphics, 10, 100, 200, true⟩

def rowB : Row := ⟨"b", "pb", "b.svg", .vector, 20, 150, 200, false⟩

def rowC : Row := ⟨"c", "pc", "c.png", .graphics, 30, 120, 200, true⟩

/-- Witness for C1 at a concrete store: the vanished path's flag drops to
`false`, the reappeared path's flag rises to `true`, the erroring probe
leaves its row untouched. -/
theorem verify_and_update_existence_frame_witness :
    (DatabaseManager.verify_and_update_existence fsW false 2 [rowA, rowB, rowC]).1 =
      [{ rowA with file_exists := false }, { rowB with file_exists := true }, rowC] := by
  have h := (verify_and_update_existence_frame fsW 2 [rowA, rowB, rowC] (by decide)
    (by decide)).2
  rw [h]
  decide

/-! ### Destructive cleanup (`DatabaseManager.cleanup_database`)

`cleanup_database` reads batches with
`SELECT id, path FROM files WHERE file_exists = 1 ORDER BY id LIMIT ? OFFSET ?`
and deletes the rows of each batch whose path no longer exists, advancing
`offset` by `batch_size` each iteration; the uncommitted deletes are
visible to the later SELECTs of the same connection, so the
`file_exists = 1` view shrinks while `offset` keeps growing. -/

/-- The `WHERE file_exists = 1` view. -/
def flaggedView (db : List Row) : List Row := db.filter (·.file_exists)

/-- The per-batch scan of `cleanup_database`: accumulates `removed_files`
(paths probed as gone), `errors`, and `batch_to_remove` (their ids). -/
def cleanupScanBatch (fs : String → Option Bool) (batch : List Row) :
    List String × List String × List String :=
  batch.foldl
    (fun acc r =>
      match fs r.path with
      | none => (acc.1, acc.2.1 ++ ["Error checking " ++ r.path], acc.2.2)
      | some actual =>
        if actual = false then (acc.1 ++ [r.path], acc.2.1, acc.2.2 ++ [r.id])
        else acc)
    ([], [], [])

/-- Model of `cursor.executemany("DELETE FROM files WHERE id = ?", ids)`. -/
def applyRemovals (db : List Row) (ids : List String) : List Row :=
  ids.foldl (fun d i => d.filter (fun r => r.id != i)) db

/-- The `while offset < total_count` loop of
`DatabaseManager.cleanup_database` (fuel embeds the `while`; the entry
point passes `total_count + 1`). -/
def cleanupLoop (fs : String → Option Bool) (dryRun : Bool) (bs total : Nat) :
    Nat → List Row → Nat → List String → List String → Nat →
    List Row × List String × List String × Nat
  | 0, db, _, rem, errs, proc => (db, rem, errs, proc)
  | fuel + 1, db, off, rem, errs, proc =>
    if off < total then
      if (((flaggedView db).drop off).take bs).isEmpty then (db, rem, errs, proc)
      else
        cleanupLoop fs dryRun bs total fuel
          (if (cleanupScanBatch fs (((flaggedView db).drop off).take bs)).2.2 ≠ [] ∧
              ¬dryRun then
            applyRemovals db
              (cleanupScanBatch fs (((flaggedView db).drop off).take bs)).2.2
          else db)
          (off + bs)
          (rem ++ (cleanupScanBatch fs (((flaggedView db).drop off).take bs)).1)
          (errs ++ (cleanupScanBatch fs (((flaggedView db).drop off).take bs)).2.1)
          (proc + (((flaggedView db).drop off).take bs).length)
    else (db, rem, errs, proc)

/-- Model of `DatabaseManager.cleanup_database(dry_run, batch_size)`. -/
def DatabaseManager.cleanup_database (fs : String → Option Bool) (dryRun : Bool)
    (bs : Nat) (db : List Row) : List Row × CleanupResult :=
  let total := (flaggedView db).length
  let r := cleanupLoop fs dryRun bs total (total + 1) db 0 [] [] 0
  (r.1, ⟨r.2.2.2, r.2.1.length, r.2.1, r.2.2.1, dryRun⟩)

/-- Probe for the C2 failing input: every path has vanished. -/
def fsGone : String → Option Bool := fun _ => some false

def rowA2 : Row := ⟨"a", "pa", "a.jpg", .graphics, 1, 0, 0, true⟩

def rowB2 : Row := ⟨"b", "pb", "b.jpg", .graphics, 1, 0, 0, true⟩

/-- C2 (code bug): with two flagged records whose paths are both gone and
`batch_size = 1`, a non-dry-run `cleanup_database` deletes the first
record but then fetches `OFFSET 1` of the already-shrunk
`file_exists = 1` view, gets an empty batch, and stops: the second
flagged record survives even though its path no longer exists, and its
path never appears in `removed_files` (it is never probed).  This
contradicts the claim that afterwards the store contains no flagged
record whose path is gone. -/
theorem cleanup_database_skips_flagged_missing_record :
    (DatabaseManager.cleanup_database fsGone false 1 [rowA2, rowB2]).1 = [rowB2]
    ∧ rowB2.file_exists = true
    ∧ fsGone rowB2.path = some false
    ∧ (DatabaseManager.cleanup_database fsGone false 1 [rowA2, rowB2]).2.removed_files
        = ["pa"] := by
  refine ⟨by decide, rfl, rfl, by decide⟩

/-! ### Batch upsert (`DatabaseManager.add_files_batch`)

`add_files_batch` walks the record list in chunks of 100; each chunk is
written with `INSERT OR REPLACE INTO files ...` via `executemany`, which
inserts the rows one after the other.  `INSERT OR REPLACE` first deletes
every existing row that conflicts on a unique constraint — here the
`id` primary key or the `path UNIQUE` column — and then inserts the new
row.  Timestamp conversion never fails in the integer model, so the
per-record `except` skip never fires. -/

/-- One `INSERT OR REPLACE` of a record. -/
def insertOrReplace (db : List Row) (r : Row) : List Row :=
  db.filter (fun x => x.id != r.id && x.path != r.path) ++ [r]

/-- Model of `executemany` over one chunk. -/
def applyChunk (db : List Row) (chunk : List Row) : List Row :=
  chunk.foldl insertOrReplace db

/-- The `range(0, len(file_records), chunk_size)` chunking with
`chunk_size = 100`. -/
def toChunks100 : List Row → List (List Row)
  | [] => []
  | x :: xs => ((x :: xs).take 100) :: toChunks100 ((x :: xs).drop 100)
termination_by l => l.length
decreasing_by
  simp [List.length_drop]
  omega

/-- Model of `DatabaseManager.add_files_batch(file_records)` acting on the store. -/
def DatabaseManager.add_files_batch (db : List Row) (records : List Row) : List Row :=
  (toChunks100 records).foldl applyChunk db

theorem add_files_batch_eq_foldl :
    ∀ (records db : List Row),
      DatabaseManager.add_files_batch db records = records.foldl insertOrReplace db
  | [], db => by
    unfold DatabaseManager.add_files_batch
    rw [toChunks100]
    rfl
  | x :: xs, db => by
    unfold DatabaseManager.add_files_batch
    rw [toChunks100, List.foldl_cons]
    have ih := add_files_batch_eq_foldl ((x :: xs).drop 100)
      (applyChunk db ((x :: xs).take 100))
    unfold DatabaseManager.add_files_batch at ih
    rw [ih]
    conv_rhs => rw [← List.take_append_drop 100 (x :: xs)]
    rw [List.foldl_append]
    rfl
termination_by records _ => records.length
decreasing_by
  simp [List.length_drop]
  omega

/-- A row survives every `INSERT OR REPLACE` of the batch iff it conflicts
with none of the batch's records. -/
def notClobbered (rs : List Row) (x : Row) : Bool :=
  rs.all (fun r => x.id != r.id && x.path != r.path)

theorem foldl_insertOrReplace_decomp :
    ∀ (rs db : List Row),
      rs.foldl insertOrReplace db =
        db.filter (notClobbered rs) ++ rs.foldl insertOrReplace [] := by
  intro rs
  induction rs with
  | nil =>
    intro db
    show db = db.filter (notClobbered []) ++ []
    rw [List.append_nil]
    symm
    apply List.filter_eq_self.mpr
    intro a _
    rfl
  | cons r rest ih =>
    intro db
    rw [List.foldl_cons, ih (insertOrReplace db r), List.foldl_cons]
    rw [show insertOrReplace [] r = [r] from rfl]
    rw [ih [r]]
    unfold insertOrReplace
    rw [List.filter_append, List.filter_filter]
    have hpred : ∀ x : Row,
        (notClobbered rest x && (x.id != r.id && x.path != r.path)) =
          notClobbered (r :: rest) x := by
      intro x
      unfold notClobbered
      rw [List.all_cons, Bool.and_comm]
    rw [List.filter_congr (fun x _ => hpred x), List.append_assoc]

theorem mem_foldl_insertOrReplace :
    ∀ (rs db : List Row) (x : Row), x ∈ rs.foldl insertOrReplace db →
      x ∈ db ∨ x ∈ rs := by
  intro rs
  induction rs with
  | nil =>
    intro db x hx
    exact Or.inl hx
  | cons r rest ih =>
    intro db x hx
    rw [List.foldl_cons] at hx
    rcases ih (insertOrReplace db r) x hx with h | h
    · unfold insertOrReplace at h
      rcases List.mem_append.mp h with h | h
      · exact Or.inl (List.mem_of_mem_filter h)
      · rcases List.mem_singleton.mp h with rfl
        exact Or.inr (List.mem_cons_self _ _)
    · exact Or.inr (List.mem_cons_of_mem r h)

theorem notClobbered_of_mem {rs : List Row} {x : Row} (hx : x ∈ rs) :
    notClobbered rs x = false := by
  unfold notClobbered
  rw [Bool.eq_false_iff]
  intro hall
  have := List.all_eq_true.mp hall x hx
  simp at this

theorem filter_foldl_insertOrReplace_nil (rs : List Row) :
    (rs.foldl insertOrReplace []).filter (notClobbered rs) = [] := by
  rw [List.filter_eq_nil_iff]
  intro x hx
  rcases mem_foldl_insertOrReplace rs [] x hx with h | h
  · exact absurd h (List.not_mem_nil x)
  · rw [notClobbered_of_mem h]
    simp

/-- C3: `DatabaseManager.add_files_batch` is idempotent: re-applying the
same batch of records to the store it just produced yields the identical
store — same rows, same row count, same field values — because each
record's second `INSERT OR REPLACE` replaces exactly the row that its
first application inserted (last write per path wins within the batch,
and no record of the batch survives the re-application's conflict
deletion). -/
theorem add_files_batch_idempotent (db records : List Row) :
    DatabaseManager.add_files_batch (DatabaseManager.add_files_batch db records)
      records = DatabaseManager.add_files_batch db records := by
  rw [add_files_batch_eq_foldl, add_files_batch_eq_foldl]
  rw [foldl_insertOrReplace_decomp records db]
  rw [foldl_insertOrReplace_decomp records
    (db.filter (notClobbered records) ++ records.foldl insertOrReplace [])]
  rw [List.filter_append, List.filter_filter]
  rw [List.filter_congr (fun x _ => Bool.and_self (notClobbered records x))]
  rw [filter_foldl_insertOrReplace_nil, List.append_nil]

/-! ### Search (`DatabaseManager.search_files` and the `/api/files` handler)

`search_files` builds `SELECT * FROM files WHERE 1=1 [AND ...] ORDER BY
modified_date DESC [LIMIT ? [OFFSET ?]]`.  Python truthiness guards the
clauses: an empty `query` string and a `limit` of `None` or `0` add no
clause, `OFFSET` is added only inside the `LIMIT` branch and only when
`offset > 0`.  SQLite's `LIKE '%q%'` is ASCII-case-insensitive substring
matching (wildcard characters inside `q` are not exercised here).  The
`ORDER BY modified_date DESC` clause is modelled by a deterministic
descending insertion sort; SQLite does not specify the relative order of
rows with equal `modified_date`, and no theorem below depends on it. -/

structure SearchCriteria where
  query : Option String
  category : Option FileCategory
  min_size : Option Int
  max_size : Option Int
  modified_after : Option Int
  modified_before : Option Int
  limit : Option Int
  offset : Int
deriving Repr

def isPrefixChars : List Char → List Char → Bool
  | [], _ => true
  | _ :: _, [] => false
  | a :: as, b :: bs => a == b && isPrefixChars as bs

def containsSub (sub : List Char) : List Char → Bool
  | [] => sub.isEmpty
  | c :: t => isPrefixChars sub (c :: t) || containsSub sub t

/-- Model of `column LIKE '%needle%'` (ASCII case-insensitive containment). -/
def likeContains (hay needle : String) : Bool :=
  containsSub (needle.toList.map Char.toLower) (hay.toList.map Char.toLower)

/-- One row against the `WHERE` clauses assembled by `search_files`. -/
def rowMatches (c : SearchCriteria) (r : Row) : Bool :=
  (match c.query with
   | some q =>
     if q = "" then true else likeContains r.filename q || likeContains r.path q
   | none => true)
  && (match c.category with
      | some cat => decide (r.category = cat)
      | none => true)
  && (match c.min_size with
      | some m => decide (m ≤ r.size)
      | none => true)
  && (match c.max_size with
      | some m => decide (r.size ≤ m)
      | none => true)
  && (match c.modified_after with
      | some t => decide (t ≤ r.modified_date)
      | none => true)
  && (match c.modified_before with
      | some t => decide (r.modified_date ≤ t)
      | none => true)

/-- Descending insertion by `modified_date`. -/
def insertDesc (r : Row) : List Row → List Row
  | [] => [r]
  | x :: xs =>
    if x.modified_date ≤ r.modified_date then r :: x :: xs else x :: insertDesc r xs

/-- Model of `ORDER BY modified_date DESC` (tie order fixed by the model, not by
SQLite). -/
def sortByModifiedDesc (l : List Row) : List Row := l.foldr insertDesc []

/-- The `LIMIT ? [OFFSET ?]` tail: no clause when `limit` is `None` or `0`
(Python truthiness); `OFFSET` only when `offset > 0`; a negative SQL
`LIMIT` means unlimited. -/
def applyLimitOffset (c : SearchCriteria) (l : List Row) : List Row :=
  match c.limit with
  | none => l
  | some lim =>
    if lim = 0 then l
    else
      if lim < 0 then (if 0 < c.offset then l.drop c.offset.toNat else l)
      else (if 0 < c.offset then l.drop c.offset.toNat else l).take lim.toNat

/-- Model of `DatabaseManager.search_files(criteria)`. -/
def DatabaseManager.search_files (db : List Row) (c : SearchCriteria) : List Row :=
  applyLimitOffset c (sortByModifiedDesc (db.filter (rowMatches c)))

theorem mem_insertDesc (r x : Row) :
    ∀ (l : List Row), x ∈ insertDesc r l ↔ x = r ∨ x ∈ l := by
  intro l
  induction l with
  | nil => simp [insertDesc]
  | cons a t ih =>
    unfold insertDesc
    by_cases h : a.modified_date ≤ r.modified_date
    · rw [if_pos h]
      simp
    · rw [if_neg h]
      simp only [List.mem_cons, ih]
      tauto

theorem mem_sortByModifiedDesc (x : Row) :
    ∀ (l : List Row), x ∈ sortByModifiedDesc l ↔ x ∈ l := by
  intro l
  induction l with
  | nil => simp [sortByModifiedDesc]
  | cons a t ih =>
    show x ∈ insertDesc a (sortByModifiedDesc t) ↔ _
    rw [mem_insertDesc, ih]
    simp

theorem applyLimitOffset_none {c : SearchCriteria} (h : c.limit = none)
    (l : List Row) : applyLimitOffset c l = l := by
  unfold applyLimitOffset
  rw [h]

theorem applyLimitOffset_some {c : SearchCriteria} {lim : Int}
    (h : c.limit = some lim) (l : List Row) :
    applyLimitOffset c l =
      if lim = 0 then l
      else
        if lim < 0 then (if 0 < c.offset then l.drop c.offset.toNat else l)
        else (if 0 < c.offset then l.drop c.offset.toNat else l).take lim.toNat := by
  unfold applyLimitOffset
  rw [h]

/-- C10: `search_files` applies the pagination offset only under a truthy
limit: with `limit = None` the `OFFSET` clause is never emitted, so any
offset value yields the same result — all matching records, ordered — and
with a positive limit and offset 0 the first page (a `take` of the full
ordered result) is returned. -/
theorem search_files_offset_requires_limit (db : List Row) (c : SearchCriteria) :
    (c.limit = none →
      (∀ o : Int, DatabaseManager.search_files db { c with offset := o } =
        DatabaseManager.search_files db c)
      ∧ (∀ r : Row, r ∈ DatabaseManager.search_files db c ↔
          r ∈ db ∧ rowMatches c r = true))
    ∧ (∀ l : Int, 0 < l → c.offset = 0 →
        DatabaseManager.search_files db { c with limit := some l } =
          (sortByModifiedDesc (db.filter (rowMatches c))).take l.toNat) := by
  constructor
  · intro hlim
    constructor
    · intro o
      show applyLimitOffset { c with offset := o }
          (sortByModifiedDesc
            (db.filter (rowMatches { c with offset := o }))) =
        applyLimitOffset c (sortByModifiedDesc (db.filter (rowMatches c)))
      rw [applyLimitOffset_none
        (show ({ c with offset := o } : SearchCriteria).limit = none from hlim),
        applyLimitOffset_none hlim]
      rfl
    · intro r
      show r ∈ applyLimitOffset c (sortByModifiedDesc (db.filter (rowMatches c))) ↔ _
      rw [applyLimitOffset_none hlim, mem_sortByModifiedDesc, List.mem_filter]
  · intro l hl hoff
    have hne : ¬(l = 0) := by omega
    have hneg : ¬(l < 0) := by omega
    show applyLimitOffset { c with limit := some l }
        (sortByModifiedDesc
          (db.filter (rowMatches { c with limit := some l }))) = _
    rw [applyLimitOffset_some
      (show ({ c with limit := some l } : SearchCriteria).limit = some l from rfl)]
    rw [if_neg hne, if_neg hneg,
      if_neg (show ¬(0 < ({ c with limit := some l } : SearchCriteria).offset) by
        show ¬(0 < c.offset)
        rw [hoff]
        omega)]
    rfl

def critNoLimit : SearchCriteria :=
  ⟨none, none, none, none, none, none, none, 0⟩

/-- Witness for C10: with no limit, offset 7 returns the same rows as
offset 0, and membership is exactly the matching rows; with limit 1 and
offset 0 the first page comes back. -/
theorem search_files_offset_requires_limit_witness :
    DatabaseManager.search_files [rowA, rowB] { critNoLimit with offset := 7 } =
      DatabaseManager.search_files [rowA, rowB] critNoLimit
    ∧ DatabaseManager.search_files [rowA, rowB]
        { critNoLimit with limit := some 1 } =
      (sortByModifiedDesc ([rowA, rowB].filter (rowMatches critNoLimit))).take 1 := by
  constructor
  · exact ((search_files_offset_requires_limit [rowA, rowB] critNoLimit).1 rfl).1 7
  · exact (search_files_offset_requires_limit [rowA, rowB] critNoLimit).2 1
      (by decide) rfl

/-! ### `/api/files` handler (`get_files` in `src/web/blueprints/api.py`)

The handler validates limit range, offset sign, size signs, the
`min_size > max_size` combination and the category string — in that
source order — raising `ValidationError` (HTTP 400) before
`db.search_files(criteria)` is ever called.  The result type `Except`
carries the validation message on the error side. -/

structure FilesParams where
  query : String
  category_str : String
  min_size : Option Int
  max_size : Option Int
  limit : Int
  offset : Int

/-- Model of `FileCategory(category_str)`, returning `none` where Python raises
`ValueError`. -/
def parse_category (s : String) : Option FileCategory :=
  if s = "graphics" then some .graphics
  else if s = "lightburn" then some .lightburn
  else if s = "vector" then some .vector
  else none

/-- The validation-then-search body of `get_files`. -/
def get_files_handler (db : List Row) (p : FilesParams) : Except String (List Row) :=
  if p.limit < 1 ∨ 1000 < p.limit then .error "Limit must be between 1 and 1000"
  else if p.offset < 0 then .error "Offset must be non-negative"
  else if (match p.min_size with
           | some m => decide (m < 0)
           | none => false) then .error "Minimum size must be non-negative"
  else if (match p.max_size with
           | some m => decide (m < 0)
           | none => false) then .error "Maximum size must be non-negative"
  else if (match p.min_size, p.max_size with
           | some a, some b => decide (b < a)
           | _, _ => false) then
    .error "Minimum size cannot be greater than maximum size"
  else if p.category_str ≠ "" ∧ parse_category p.category_str = none then
    .error ("Invalid category: " ++ p.category_str)
  else
    .ok (DatabaseManager.search_files db
      { query := if p.query ≠ "" then some p.query else none,
        category := parse_category p.category_str,
        min_size := p.min_size,
        max_size := p.max_size,
        modified_after := none,
        modified_before := none,
        limit := some p.limit,
        offset := p.offset })

/-- C5: whenever both sizes are given with `min_size > max_size`, the
`/api/files` handler fails with a validation error — some check in the
validation chain fires before the search — and the outcome is the same
whatever the store contents: the store is never queried and no results
are returned. -/
theorem get_files_min_gt_max_validation (db : List Row) (p : FilesParams)
    (a b : Int) (hmin : p.min_size = some a) (hmax : p.max_size = some b)
    (hab : b < a) :
    (∃ msg, get_files_handler db p = .error msg)
    ∧ ∀ db2 : List Row, get_files_handler db p = get_files_handler db2 p := by
  have h5 : (match p.min_size, p.max_size with
      | some a2, some b2 => decide (b2 < a2)
      | _, _ => false) = true := by
    rw [hmin, hmax]
    simp [hab]
  constructor
  · unfold get_files_handler
    split_ifs <;> exact ⟨_, rfl⟩
  · intro db2
    unfold get_files_handler
    split_ifs <;> rfl

def paramsBad : FilesParams := ⟨"", "", some 5, some 3, 50, 0⟩

/-- Witness for C5: `min_size = 5 > 3 = max_size` makes the handler fail
identically on two different stores. -/
theorem get_files_min_gt_max_validation_witness :
    (∃ msg, get_files_handler [] paramsBad = .error msg)
    ∧ get_files_handler [] paramsBad = get_files_handler [rowA] paramsBad := by
  have h := get_files_min_gt_max_validation [] paramsBad 5 3 rfl rfl (by decide)
  exact ⟨h.1, h.2 [rowA]⟩

/-! ### Traversal (`FileScanner.scan_files` in `src/core/scanner.py`)

`scan_files` lists `path.glob('**/*' if recursive else '*')` and filters:
skip non-files, skip entries whose *own name* starts with a dot unless
`include_hidden`, skip entries deeper than `max_depth` (depth =
`len(item.relative_to(path).parts) - 1`, so direct children have depth
0), then yield `get_file_metadata(item)` when it is not `None`.
`pathlib`'s glob enumerates dot-directories and their contents like any
other entries.  An `Entry` is one glob result: its path components
relative to the scan root, whether the `is_file()` / `exists()` stats
answer true, and its stat metadata.  `scan_files` is modelled as the
sub-list of entries for which a `FileRecord` is yielded (the record's
fields are the entry's metadata).  Cancellation stays unset here, and
`relative_to` always succeeds because entries carry root-relative
components. -/

structure Entry where
  parts : List String
  isFile : Bool
  existsNow : Bool
  size : Int
  mtime : Int
deriving DecidableEq, Repr

structure ScanOptions where
  recursive : Bool
  verbose : Bool
  max_depth : Option Nat
  include_hidden : Bool
deriving DecidableEq, Repr

/-- Model of `item.name`: the last path component. -/
def entryName (e : Entry) : String := e.parts.getLastD ""

/-- Model of `name.startswith('.')`: does the first character exist and equal a
dot. -/
def isHiddenName (s : String) : Bool :=
  match s.toList with
  | [] => false
  | c :: _ => c == '.' 

/-- Model of `FileScanner.get_file_metadata`: `None` (here `false`) unless the path
exists, is a regular file and is categorizable. -/
def FileScanner.get_file_metadata (e : Entry) : Bool :=
  if !e.existsNow || !e.isFile then false
  else (FileCategory.categorize_file (entryName e).toList).isSome

/-- The per-item filter chain of `FileScanner.scan_files`. -/
def FileScanner.scan_files (options : ScanOptions) (items : List Entry) : List Entry :=
  items.filter (fun item =>
    if !item.isFile then false
    else if !options.include_hidden && isHiddenName (entryName item) then false
    else
      match options.max_depth with
      | some d =>
        if item.parts.length - 1 > d then false else FileScanner.get_file_metadata item
      | none => FileScanner.get_file_metadata item)

/-- C6: with `max_depth` set, the traversal yields exactly the
categorizable regular files passing the hidden-name rule whose depth
(number of components below the root minus one; direct children have
depth 0) is at most `max_depth` — the boundary is inclusive — and with
`max_depth = 0` every yielded entry is a direct child of the root, never
inside a subdirectory. -/
theorem scan_files_max_depth_inclusive (opts : ScanOptions) (items : List Entry)
    (d : Nat) (hd : opts.max_depth = some d)
    (hwf : ∀ e ∈ items, e.parts ≠ []) :
    (∀ e : Entry, e ∈ FileScanner.scan_files opts items ↔
      e ∈ items ∧ e.isFile = true
        ∧ (opts.include_hidden = true ∨ isHiddenName (entryName e) = false)
        ∧ e.parts.length - 1 ≤ d
        ∧ FileScanner.get_file_metadata e = true)
    ∧ (d = 0 → ∀ e ∈ FileScanner.scan_files opts items, e.parts.length = 1) := by
  have hpred : ∀ e : Entry,
      ((if !e.isFile then false
        else if !opts.include_hidden && isHiddenName (entryName e) then false
        else
          match opts.max_depth with
          | some d2 =>
            if e.parts.length - 1 > d2 then false else FileScanner.get_file_metadata e
          | none => FileScanner.get_file_metadata e) = true) ↔
      (e.isFile = true
        ∧ (opts.include_hidden = true ∨ isHiddenName (entryName e) = false)
        ∧ e.parts.length - 1 ≤ d
        ∧ FileScanner.get_file_metadata e = true) := by
    intro e
    rw [hd]
    cases hf : e.isFile
    · simp [hf]
    · cases hh : opts.include_hidden <;> cases hn : isHiddenName (entryName e) <;>
        by_cases hdep : e.parts.length - 1 > d <;>
        simp [hf, hh, hn, hdep] <;> omega
  have hmem : ∀ e : Entry, e ∈ FileScanner.scan_files opts items ↔
      e ∈ items ∧ e.isFile = true
        ∧ (opts.include_hidden = true ∨ isHiddenName (entryName e) = false)
        ∧ e.parts.length - 1 ≤ d
        ∧ FileScanner.get_file_metadata e = true := by
    intro e
    unfold FileScanner.scan_files
    rw [List.mem_filter]
    exact and_congr_right (fun _ => hpred e)
  refine ⟨hmem, ?_⟩
  intro hd0 e he
  have h := (hmem e).mp he
  have hne := hwf e h.1
  have hpos : 0 < e.parts.length := List.length_pos.mpr hne
  have hle := h.2.2.2.1
  omega

def optsW : ScanOptions := ⟨true, false, some 0, false⟩

def entryRoot : Entry := ⟨["a.jpg"], true, true, 5, 0⟩

def entrySubDir : Entry := ⟨["sub"], false, true, 0, 0⟩

def entryDeep : Entry := ⟨["sub", "b.jpg"], true, true, 5, 0⟩

/-- Witness for C6: with `max_depth = 0`, a categorizable file in a
subdirectory is skipped and the yielded direct child has a single
component. -/
theorem scan_files_max_depth_inclusive_witness :
    FileScanner.scan_files optsW [entryRoot, entrySubDir, entryDeep] = [entryRoot]
    ∧ entryRoot.parts.length = 1 := by
  constructor
  · decide
  · exact (scan_files_max_depth_inclusive optsW [entryRoot, entrySubDir, entryDeep] 0
      rfl (by decide)).2 rfl entryRoot (by decide)

/-- C9 (implicit behaviour): the hidden-entry test looks only at the
entry's own file name, so with `include_hidden = false` a regular,
existing, categorizable file whose name has no leading dot is still
yielded even when one of its ancestor directories under the scan root is
dot-prefixed. -/
theorem scan_files_hidden_dir_file_yielded (opts : ScanOptions) (items : List Entry)
    (e : Entry) (hopts : opts.include_hidden = false) (hmd : opts.max_depth = none)
    (hmem : e ∈ items) (hf : e.isFile = true)
    (hname : isHiddenName (entryName e) = false)
    (hex : e.existsNow = true)
    (hcat : (FileCategory.categorize_file (entryName e).toList).isSome = true)
    (hhid : ∃ part ∈ e.parts, isHiddenName part = true) :
    e ∈ FileScanner.scan_files opts items := by
  unfold FileScanner.scan_files
  rw [List.mem_filter]
  refine ⟨hmem, ?_⟩
  rw [hmd]
  simp [FileScanner.get_file_metadata, hf, hname, hex]
  exact hcat

def optsH : ScanOptions := ⟨true, false, none, false⟩

def entryHiddenDir : Entry := ⟨[".hidden"], false, true, 0, 0⟩

def entryInHidden : Entry := ⟨[".hidden", "img.png"], true, true, 7, 0⟩

/-- Witness for C9: `img.png` inside the dot-directory `.hidden` is
yielded by a recursive scan with `include_hidden = false`. -/
theorem scan_files_hidden_dir_file_yielded_witness :
    entryInHidden ∈ FileScanner.scan_files optsH [entryHiddenDir, entryInHidden] :=
  scan_files_hidden_dir_file_yielded optsH [entryHiddenDir, entryInHidden]
    entryInHidden rfl rfl (by decide) rfl (by decide) rfl (by decide) (by decide)

/-! ### Circuit breaker (`CircuitBreaker` in `src/core/error_handler.py`)

`call` fails fast while the state is `"open"` and the recovery timeout
has not elapsed since `last_failure_time`; otherwise it flips to
`"half-open"` (when open) and invokes the wrapped function.  A success
zeroes `failure_count` and closes the breaker; a failure increments the
count, stamps `last_failure_time`, and opens the breaker once the count
reaches `failure_threshold`.  Time is an integer parameter standing for
`time.time()` at the moment of the call; the wrapped function's fate is
the boolean `outcome` (`CBResult.rejected` means the breaker raised
without invoking it). -/

inductive CBState where
  | closed
  | opened
  | halfOpen
deriving DecidableEq, Repr

structure CircuitBreaker where
  failure_threshold : Nat
  recovery_timeout : Int
  failure_count : Nat
  last_failure_time : Option Int
  state : CBState
deriving DecidableEq, Repr

inductive CBResult where
  | rejected
  | ran (success : Bool)
deriving DecidableEq, Repr

/-- Model of `CircuitBreaker._should_attempt_reset`. -/
def CircuitBreaker.shouldAttemptReset (cb : CircuitBreaker) (now : Int) : Bool :=
  match cb.last_failure_time with
  | none => true
  | some t => decide (cb.recovery_timeout ≤ now - t)

/-- Model of `CircuitBreaker._on_success`. -/
def CircuitBreaker.onSuccess (cb : CircuitBreaker) : CircuitBreaker :=
  { cb with failure_count := 0, state := .closed }

/-- Model of `CircuitBreaker._on_failure`. -/
def CircuitBreaker.onFailure (cb : CircuitBreaker) (now : Int) : CircuitBreaker :=
  { cb with
    failure_count := cb.failure_count + 1,
    last_failure_time := some now,
    state :=
      if cb.failure_threshold ≤ cb.failure_count + 1 then .opened else cb.state }

/-- The `try/except` around `func(*args, **kwargs)` inside `call`. -/
def CircuitBreaker.proceed (cb : CircuitBreaker) (now : Int) (outcome : Bool) :
    CircuitBreaker × CBResult :=
  if outcome then (cb.onSuccess, .ran true) else (cb.onFailure now, .ran false)

/-- Model of `CircuitBreaker.call`. -/
def CircuitBreaker.call (cb : CircuitBreaker) (now : Int) (outcome : Bool) :
    CircuitBreaker × CBResult :=
  match cb.state with
  | .opened =>
    if cb.shouldAttemptReset now then
      ({ cb with state := .halfOpen }).proceed now outcome
    else (cb, .rejected)
  | _ => cb.proceed now outcome

/-- A sequence of calls whose wrapped function always fails. -/
def failSeq (cb : CircuitBreaker) (ts : List Int) : CircuitBreaker :=
  ts.foldl (fun c t => (c.call t false).1) cb

theorem call_closed_failure (cb : CircuitBreaker) (t : Int) (hst : cb.state = .closed) :
    (cb.call t false).1 = cb.onFailure t := by
  unfold CircuitBreaker.call
  rw [hst]
  rfl

theorem failSeq_opens :
    ∀ (ts : List Int) (cb : CircuitBreaker), cb.state = .closed →
      cb.failure_count + ts.length = cb.failure_threshold → 1 ≤ ts.length →
      (failSeq cb ts).state = .opened
  | [], _ => by
    intro _ _ h
    simp at h
  | t :: ts', cb => by
    intro hst hcount _
    show (failSeq ((cb.call t false).1) ts').state = .opened
    rw [call_closed_failure cb t hst]
    simp only [List.length_cons] at hcount
    by_cases hts : ts' = []
    · subst hts
      show (cb.onFailure t).state = .opened
      have hc : cb.failure_threshold ≤ cb.failure_count + 1 := by
        simp at hcount
        omega
      simp [CircuitBreaker.onFailure, hc]
    · have hlen : 1 ≤ ts'.length := List.length_pos.mpr hts
      apply failSeq_opens ts'
      · show (if cb.failure_threshold ≤ cb.failure_count + 1 then CBState.opened
          else cb.state) = .closed
        rw [if_neg (by omega), hst]
      · show cb.failure_count + 1 + ts'.length = cb.failure_threshold
        omega
      · exact hlen

/-- C8: the circuit breaker is the `{closed, open, half-open}` state
machine of the spec: (a) `failure_threshold` consecutive failing calls
from a fresh closed breaker leave it open; (b) while open and within the
recovery timeout of the last failure, every call is rejected immediately
— the result is `rejected` for either outcome of the wrapped function,
which is therefore never invoked, and the breaker is unchanged; (c) once
the timeout has elapsed the next call goes through as the half-open
trial: if it succeeds the breaker closes, and if it fails (the count
being at least the threshold, an invariant of every open breaker) the
breaker re-opens stamped with the trial time, so that any call within
the new cooldown window is again rejected — exactly one trial passes;
(d) any call whose wrapped invocation succeeds resets the failure count
to zero and closes the breaker, from any state. -/
theorem circuit_breaker_state_machine :
    (∀ (cb : CircuitBreaker) (ts : List Int),
      cb.state = .closed → cb.failure_count = 0 →
      ts.length = cb.failure_threshold → 1 ≤ cb.failure_threshold →
      (failSeq cb ts).state = .opened)
    ∧ (∀ (cb : CircuitBreaker) (now t : Int) (outcome : Bool),
      cb.state = .opened → cb.last_failure_time = some t →
      now - t < cb.recovery_timeout → cb.call now outcome = (cb, .rejected))
    ∧ (∀ (cb : CircuitBreaker) (now t : Int) (outcome : Bool),
      cb.state = .opened → cb.last_failure_time = some t →
      cb.recovery_timeout ≤ now - t →
      (cb.call now outcome).2 = .ran outcome
      ∧ (outcome = true → (cb.call now outcome).1.state = .closed)
      ∧ (outcome = false → cb.failure_threshold ≤ cb.failure_count →
          (cb.call now outcome).1.state = .opened
          ∧ (cb.call now outcome).1.last_failure_time = some now
          ∧ ∀ (now2 : Int) (o2 : Bool), now2 - now < cb.recovery_timeout →
              (cb.call now outcome).1.call now2 o2 = ((cb.call now outcome).1, .rejected)))
    ∧ (∀ (cb : CircuitBreaker) (now : Int),
      (cb.call now true).2 = .ran true →
      (cb.call now true).1.state = .closed ∧ (cb.call now true).1.failure_count = 0) := by
  refine ⟨?_, ?_, ?_, ?_⟩
  · intro cb ts hst hcount hlen hthr
    exact failSeq_opens ts cb hst (by omega) (by omega)
  · intro cb now t outcome hst hlast hwin
    have hres : cb.shouldAttemptReset now = false := by
      unfold CircuitBreaker.shouldAttemptReset
      rw [hlast]
      simp
      omega
    unfold CircuitBreaker.call
    rw [hst, hres]
    rfl
  · intro cb now t outcome hst hlast helapsed
    have hres : cb.shouldAttemptReset now = true := by
      unfold CircuitBreaker.shouldAttemptReset
      rw [hlast]
      simp
      omega
    have hcall : cb.call now outcome =
        ({ cb with state := .halfOpen }).proceed now outcome := by
      unfold CircuitBreaker.call
      rw [hst, hres]
      rfl
    refine ⟨?_, ?_, ?_⟩
    · rw [hcall]
      cases outcome <;> rfl
    · intro ho
      subst ho
      rw [hcall]
      rfl
    · intro ho hinv
      subst ho
      have h1 : (cb.call now false).1 =
          ({ cb with state := CBState.halfOpen }).onFailure now := by
        rw [hcall]
        rfl
      have hthr : cb.failure_threshold ≤ cb.failure_count + 1 := by omega
      have hopen2 : (({ cb with state := CBState.halfOpen }).onFailure now).state
          = .opened := by
        show (if cb.failure_threshold ≤ cb.failure_count + 1 then CBState.opened
          else CBState.halfOpen) = .opened
        rw [if_pos hthr]
      refine ⟨by rw [h1]; exact hopen2, by rw [h1]; rfl, ?_⟩
      intro now2 o2 hwin2
      rw [h1]
      have hres2 : (({ cb with state := CBState.halfOpen }).onFailure
          now).shouldAttemptReset now2 = false := by
        unfold CircuitBreaker.shouldAttemptReset
        show decide (cb.recovery_timeout ≤ now2 - now) = false
        simp
        omega
      unfold CircuitBreaker.call
      rw [hopen2, hres2]
      rfl
  · intro cb now hran
    cases hst : cb.state with
    | closed =>
      unfold CircuitBreaker.call
      rw [hst]
      exact ⟨rfl, rfl⟩
    | halfOpen =>
      unfold CircuitBreaker.call
      rw [hst]
      exact ⟨rfl, rfl⟩
    | opened =>
      unfold CircuitBreaker.call at hran ⊢
      rw [hst] at hran ⊢
      by_cases hres : cb.shouldAttemptReset now = true
      · rw [hres]
        exact ⟨rfl, rfl⟩
      · rw [Bool.not_eq_true] at hres
        rw [hres] at hran
        simp at hran

def cbOpenW : CircuitBreaker := ⟨5, 30, 5, some 0, .opened⟩

def cbFreshW : CircuitBreaker := ⟨2, 30, 0, none, .closed⟩

/-- Witness for C8: an open breaker 10 seconds after its last failure
(30-second cooldown) rejects a call outright, and two consecutive
failures open a fresh breaker with threshold 2. -/
theorem circuit_breaker_state_machine_witness :
    cbOpenW.call 10 true = (cbOpenW, .rejected)
    ∧ (failSeq cbFreshW [0, 1]).state = .opened := by
  constructor
  · exact circuit_breaker_state_machine.2.1 cbOpenW 10 0 true rfl rfl (by decide)
  · exact circuit_breaker_state_machine.1 cbFreshW [0, 1] rfl rfl rfl (by decide)
